import Mathlib

set_option maxHeartbeats 1000000

/- Shallow embedding of the translation-server core of
   XUnity-Moil-LLMTranslateGUI-C++ (src/TranslationServer.cpp).  QStrings are
   modelled as lists of characters.  Each QRegularExpression scan of the source
   is embedded as the equivalent deterministic left-to-right scanner; scanners
   that advance by more than one character per step carry an explicit fuel
   argument, always instantiated with the length of the input, which bounds the
   number of scan steps.  Whitespace classes are modelled at their ASCII core. -/

/-- Strings are modelled as lists of characters. -/
abbrev Str := List Char

/-- The PCRE whitespace class backslash-s: space, tab, LF, VT, FF, CR. -/
def isWs (c : Char) : Bool :=
  c == ' ' || c == '\t' || c == '\n' || c == Char.ofNat 11 || c == Char.ofNat 12 || c == '\r'

/-- Does the second list start with the first one? -/
def startsWithL : Str → Str → Bool
  | [], _ => true
  | _ :: _, [] => false
  | a :: as, b :: bs => a == b && startsWithL as bs

/-- Case-insensitive prefix test, modelling QString::startsWith with
Qt::CaseInsensitive (case folding modelled by Char.toLower). -/
def startsWithCIL : Str → Str → Bool
  | [], _ => true
  | _ :: _, [] => false
  | a :: as, b :: bs => a.toLower == b.toLower && startsWithCIL as bs

/-- Case-sensitive substring test. -/
def containsSubL (pat : Str) : Str → Bool
  | [] => pat.isEmpty
  | c :: cs => startsWithL pat (c :: cs) || containsSubL pat cs

/-- Case-insensitive substring test, modelling QString::contains with
Qt::CaseInsensitive. -/
def containsSubCI (pat : Str) : Str → Bool
  | [] => pat.isEmpty
  | c :: cs => startsWithCIL pat (c :: cs) || containsSubCI pat cs

/-- QString::trimmed, at its ASCII whitespace core. -/
def trimL (l : Str) : Str :=
  ((l.dropWhile isWs).reverse.dropWhile isWs).reverse

/-- Maximal leading whitespace run: returns (run, rest). -/
def wsRun : Str → Str × Str
  | [] => ([], [])
  | c :: cs =>
    if isWs c then
      let p := wsRun cs
      (c :: p.1, p.2)
    else ([], c :: cs)

/-- Maximal leading decimal-digit run: returns (run, rest). -/
def digitRun : Str → Str × Str
  | [] => ([], [])
  | c :: cs =>
    if c.isDigit then
      let p := digitRun cs
      (c :: p.1, p.2)
    else ([], c :: cs)

/-- First association-list entry with the given key (QMap lookup; the maps
built by the code always have distinct keys). -/
def lookupL : List (Str × Str) → Str → Option Str
  | [], _ => none
  | (k, v) :: rest, key => if k == key then some v else lookupL rest key

/-- First some in a list of candidates, modelling ordered regex alternation. -/
def firstSome {α : Type} : List (Option α) → Option α
  | [] => none
  | some a :: _ => some a
  | none :: rest => firstSome rest

/-- The decimal digit characters, used to model QString arg of an int. -/
def digitChar : Nat → Char
  | 0 => '0' | 1 => '1' | 2 => '2' | 3 => '3' | 4 => '4'
  | 5 => '5' | 6 => '6' | 7 => '7' | 8 => '8' | _ => '9'

/-- Decimal digits of a natural number (fuel-based so that it computes). -/
def natDigitsF : Nat → Nat → Str
  | 0, _ => []
  | fuel + 1, n =>
    if n < 10 then [digitChar n]
    else natDigitsF fuel (n / 10) ++ [digitChar (n % 10)]

/-- Decimal representation of a natural number, e.g. natDigits 12 is 1, 2. -/
def natDigits (n : Nat) : Str := natDigitsF (n + 1) n

/-- Numeric value of a digit string (left fold), inverse of natDigits. -/
def valOfDigits (l : Str) : Nat :=
  l.foldl (fun a c => a * 10 + (c.toNat - 48)) 0

/- ==========================================================================
   Placeholder codec: TranslationServer::freezeEscapesLocal /
   TranslationServer::thawEscapesLocal (TranslationServer.cpp lines 55-128).
   ========================================================================== -/

/-- The freeze placeholder key, QString [T_%1] arg counter. -/
def phKey (n : Nat) : Str := '[' :: 'T' :: '_' :: (natDigits n ++ [']'])

/-- Lazy close for the freeze alternative double-brace dot-star-lazy
double-close-brace: stops at the earliest close pair, with the default
QRegularExpression dot that does not match LF.  Returns (content, rest). -/
def findCloseBraces : Str → Option (Str × Str)
  | [] => none
  | c :: cs =>
    if startsWithL ['}', '}'] (c :: cs) then some ([], cs.drop 1)
    else if c == '\n' then none
    else (findCloseBraces cs).map (fun p => (c :: p.1, p.2))

/-- Characters up to the first close angle bracket (the regex class of
non-close-bracket characters, which includes LF).  Returns (content, rest). -/
def takeUntilGt : Str → Option (Str × Str)
  | [] => none
  | c :: cs =>
    if c == '>' then some ([], cs)
    else (takeUntilGt cs).map (fun p => (c :: p.1, p.2))

/-- Freeze alternative 1: double-brace lazy body double-close-brace. -/
def matchBraces (l : Str) : Option (Str × Str) :=
  if startsWithL ['{', '{'] l then
    match findCloseBraces (l.drop 2) with
    | some p => some ('{' :: '{' :: (p.1 ++ ['}', '}']), p.2)
    | none => none
  else none

/-- Freeze alternative 2: open angle bracket, one or more non-close
characters, close angle bracket. -/
def matchTag (l : Str) : Option (Str × Str) :=
  if startsWithL ['<'] l then
    match takeUntilGt (l.drop 1) with
    | some p => if p.1.isEmpty then none else some ('<' :: (p.1 ++ ['>']), p.2)
    | none => none
  else none

/-- Literal-string alternative of the freeze regex. -/
def matchLit (pat : Str) (l : Str) : Option (Str × Str) :=
  if pat.isEmpty then none
  else if startsWithL pat l then some (pat, l.drop pat.length) else none

/-- The escape-sequence alternatives of the freeze regex, in alternation
order: backslash-r-backslash-n, backslash-n, backslash-r, backslash-t,
CRLF, LF, CR, TAB. -/
def freezePats : List Str :=
  [['\\', 'r', '\\', 'n'], ['\\', 'n'], ['\\', 'r'], ['\\', 't'],
   ['\r', '\n'], ['\n'], ['\r'], ['\t']]

/-- One attempt of the freeze regex at the current position, trying the
alternatives in order.  Returns (matched fragment, rest). -/
def matchFreezeAt (l : Str) : Option (Str × Str) :=
  firstSome (matchBraces l :: matchTag l :: freezePats.map (fun p => matchLit p l))

/-- An element of the decomposition of the freeze input: a copied character or
a matched fragment. -/
inductive FItem : Type
  | ch : Char → FItem
  | frag : Str → FItem
deriving DecidableEq

/-- Left-to-right global scan of the freeze regex, decomposing the input into
copied characters and matched fragments. -/
def freezeScan : Nat → Str → List FItem
  | 0, rest => rest.map FItem.ch
  | _ + 1, [] => []
  | fuel + 1, c :: cs =>
    match matchFreezeAt (c :: cs) with
    | some (f, rest) => FItem.frag f :: freezeScan fuel rest
    | none => FItem.ch c :: freezeScan fuel cs

/-- Rebuild of the rewritten text: the n-th fragment in scan order is replaced
by space [T_n] space (the counter increments per fragment). -/
def renderItems : Nat → List FItem → Str
  | _, [] => []
  | n, FItem.ch c :: rest => c :: renderItems n rest
  | n, FItem.frag _ :: rest => (' ' :: (phKey n ++ [' '])) ++ renderItems (n + 1) rest

/-- The escape map built during the scan: key [T_n] maps to the n-th matched
fragment. -/
def mapItems : Nat → List FItem → List (Str × Str)
  | _, [] => []
  | n, FItem.ch _ :: rest => mapItems n rest
  | n, FItem.frag f :: rest => (phKey n, f) :: mapItems (n + 1) rest

/-- TranslationServer::freezeEscapesLocal: returns the rewritten text and the
escape map (the EscapeMap context, cleared on entry). -/
def freezeEscapesLocal (s : Str) : Str × List (Str × Str) :=
  let items := freezeScan s.length s
  (renderItems 0 items, mapItems 0 items)

/-- One attempt of the thaw regex (ws-star bracket T underscore digits close
ws-star) at the current position.  Returns (digit capture, rest). -/
def matchThawAt (l : Str) : Option (Str × Str) :=
  let l1 := (wsRun l).2
  if startsWithL ['[', 'T', '_'] l1 then
    let l2 := l1.drop 3
    let ds := (digitRun l2).1
    let l3 := (digitRun l2).2
    if ds.isEmpty then none
    else if startsWithL [']'] l3 then some (ds, (wsRun (l3.drop 1)).2)
    else none
  else none

/-- Left-to-right global scan of the thaw regex: each matched token (with its
surrounding whitespace) is replaced by the mapped fragment, or by the bare
rebuilt key when the key is absent from the map. -/
def thawScan : Nat → List (Str × Str) → Str → Str
  | 0, _, rest => rest
  | _ + 1, _, [] => []
  | fuel + 1, m, c :: cs =>
    match matchThawAt (c :: cs) with
    | some (ds, rest) =>
      let key := '[' :: 'T' :: '_' :: (ds ++ [']'])
      (match lookupL m key with
       | some v => v
       | none => key) ++ thawScan fuel m rest
    | none => c :: thawScan fuel m cs

/-- TranslationServer::thawEscapesLocal. -/
def thawEscapesLocal (s : Str) (m : List (Str × Str)) : Str :=
  thawScan s.length m s

/-- Characters of the freeze input that make the thaw of the frozen text
reproduce the input byte for byte: whitespace next to a matched fragment is
absorbed by the thaw regex, and a literal placeholder-shaped token would be
rewritten, so space, VT, FF and the open square bracket are excluded (TAB, LF
and CR are always frozen and are therefore harmless). -/
def cleanChar (c : Char) : Bool :=
  !(c == ' ' || c == Char.ofNat 11 || c == Char.ofNat 12 || c == '[')

/- ==========================================================================
   Response reconstruction: think-stripping, tm-term harvest, tl extraction
   (TranslationServer.cpp lines 480-540).
   ========================================================================== -/

/-- Split at the first occurrence of a character: (before, after). -/
def breakAtChar (ch : Char) : Str → Option (Str × Str)
  | [] => none
  | c :: cs =>
    if c == ch then some ([], cs)
    else (breakAtChar ch cs).map (fun p => (c :: p.1, p.2))

/-- Split at the first occurrence of a (non-empty) literal: (before, after). -/
def breakAtSub (pat : Str) : Str → Option (Str × Str)
  | [] => none
  | c :: cs =>
    if startsWithL pat (c :: cs) then some ([], (c :: cs).drop pat.length)
    else (breakAtSub pat cs).map (fun p => (c :: p.1, p.2))

def thinkOpenL : Str := String.toList "<think>"

def thinkCloseL : Str := String.toList "</think>"

def tmOpenL : Str := String.toList "<tm>"

def tmCloseL : Str := String.toList "</tm>"

def tlOpenL : Str := String.toList "<tl>"

def tlCloseL : Str := String.toList "</tl>"

/-- Global removal of think spans (lazy body, dot matches newlines): each span
runs from an open tag to the first close tag after it. -/
def stripThinkScan : Nat → Str → Str
  | 0, rest => rest
  | _ + 1, [] => []
  | fuel + 1, c :: cs =>
    if startsWithL thinkOpenL (c :: cs) then
      match breakAtSub thinkCloseL ((c :: cs).drop 7) with
      | some p => stripThinkScan fuel p.2
      | none => c :: stripThinkScan fuel cs
    else c :: stripThinkScan fuel cs

/-- QString remove of the think regex on the raw assistant content. -/
def stripThink (l : Str) : Str := stripThinkScan l.length l

/-- Is a placeholder token bracket T underscore digits close bracket present
at this position?  (The tokenRegex of the term-validity check.) -/
def termTokenAt (l : Str) : Bool :=
  startsWithL ['[', 'T', '_'] l &&
    !((digitRun (l.drop 3)).1.isEmpty) && startsWithL [']'] ((digitRun (l.drop 3)).2)

/-- Does the string contain a placeholder token? -/
def containsTermToken : Str → Bool
  | [] => false
  | c :: cs => termTokenAt (c :: cs) || containsTermToken cs

/-- Is a term code Z, uppercase, uppercase, Z present at this position?
(The termCodeRegex of the term-validity check.) -/
def termCodeAt : Str → Bool
  | 'Z' :: a :: b :: 'Z' :: _ => a.isUpper && b.isUpper
  | _ => false

/-- Does the string contain a term code? -/
def containsTermCode : Str → Bool
  | [] => false
  | c :: cs => termCodeAt (c :: cs) || containsTermCode cs

/-- Term validity as the specification words it: both trimmed sides non-empty,
no placeholder token, no term code on either side. -/
def validTermSpec (k v : Str) : Bool :=
  !k.isEmpty && !v.isEmpty && !containsTermToken k && !containsTermToken v &&
    !containsTermCode k && !containsTermCode v

/-- The tm-harvest reconstruction loop (TranslationServer.cpp lines 483-528).
The reTm regex finds, from each scan position, the first tm open tag from
which an equals sign occurs later and a tm close tag occurs after that
equals sign; the captures, with their surrounding ws-stars and the final
trimmed call, amount to trimming the two spans.  The span is replaced by the
trimmed right-hand side; the harvest list records (key, value, announced)
where announced models the addNewTerm call plus newTerm log event. -/
def tmScan (pt : Str) : Nat → Str → Str × List (Str × Str × Bool)
  | 0, rest => (rest, [])
  | _ + 1, [] => ([], [])
  | fuel + 1, c :: cs =>
    if startsWithL tmOpenL (c :: cs) then
      match breakAtChar '=' ((c :: cs).drop 4) with
      | some pk =>
        match breakAtSub tmCloseL pk.2 with
        | some pv =>
          let k := trimL pk.1
          let v := trimL pv.1
          let isValidTerm :=
            if k.isEmpty || v.isEmpty then false
            else if containsTermToken k || containsTermToken v then false
            else if containsTermCode k || containsTermCode v then false
            else true
          let announced := isValidTerm && containsSubCI k pt
          let r := tmScan pt fuel pv.2
          (v ++ r.1, (k, v, announced) :: r.2)
        | none =>
          let r := tmScan pt fuel cs
          (c :: r.1, r.2)
      | none =>
        let r := tmScan pt fuel cs
        (c :: r.1, r.2)
    else
      let r := tmScan pt fuel cs
      (c :: r.1, r.2)

/-- The tm reconstruction of a content string against the processed (post
freeze, post pre-regex) text pt. -/
def tmReconstruct (pt content : Str) : Str × List (Str × Str × Bool) :=
  tmScan pt content.length content

/-- First tm match of the content, as a decomposition: prefix before the
match, raw key span, raw value span, rest after the close tag. -/
def firstTmMatch : Str → Option (Str × Str × Str × Str)
  | [] => none
  | c :: cs =>
    if startsWithL tmOpenL (c :: cs) then
      match breakAtChar '=' ((c :: cs).drop 4) with
      | some pk =>
        match breakAtSub tmCloseL pk.2 with
        | some pv => some ([], pk.1, pv.1, pv.2)
        | none => (firstTmMatch cs).map (fun q => (c :: q.1, q.2))
      | none => (firstTmMatch cs).map (fun q => (c :: q.1, q.2))
    else (firstTmMatch cs).map (fun q => (c :: q.1, q.2))

/-- Global case-insensitive removal of a literal, modelling QString remove
with Qt::CaseInsensitive (the search resumes at the removal point, so
occurrences formed across a removal are not re-examined). -/
def removeAllCIScan (pat : Str) : Nat → Str → Str
  | 0, rest => rest
  | _ + 1, [] => []
  | fuel + 1, c :: cs =>
    if pat.isEmpty then c :: cs
    else if startsWithCIL pat (c :: cs) then removeAllCIScan pat fuel ((c :: cs).drop pat.length)
    else c :: removeAllCIScan pat fuel cs

def removeAllCI (pat l : Str) : Str := removeAllCIScan pat l.length l

/-- Primary translation extraction (TranslationServer.cpp lines 530-540): the
first tl span if one exists (group trimmed), else the whole content trimmed;
then residual tl literals are removed (case-insensitively). -/
def extractPrimary (cleanContent : Str) : Str :=
  let base :=
    match breakAtSub tlOpenL cleanContent with
    | some po =>
      match breakAtSub tlCloseL po.2 with
      | some pm => trimL pm.1
      | none => trimL cleanContent
    | none => trimL cleanContent
  removeAllCI tlCloseL (removeAllCI tlOpenL base)

/-- Does the tl regex match the content at all? -/
def hasTlSpan (content : Str) : Bool :=
  match breakAtSub tlOpenL content with
  | some po => (breakAtSub tlCloseL po.2).isSome
  | none => false

/- ==========================================================================
   Retry loop (TranslationServer.cpp lines 281-339).
   ========================================================================== -/

def errorLit : Str := String.toList "Error"

def cnFailLit : Str := String.toList "翻译失败"

def enFailLit : Str := String.toList "translation failed"

/-- TranslationServer::isValidTranslationResult. -/
def isValidTranslationResult (r : Str) : Bool :=
  !r.isEmpty && !startsWithCIL errorLit r && !containsSubCI cnFailLit r &&
    !containsSubCI enFailLit r && decide (0 < r.length)

/-- The while loop of TranslationServer::performTranslation.  stop models the
process-wide m_stopRequested flag (constant over the request in this
sequential model); attempts gives the result of each single translation
attempt; the accumulator records the 100 ms backoff slices slept so far.
Returns (result, attempts made, backoff slices). -/
def ptLoop (stop : Bool) (attempts : Nat → Str) : Nat → Nat → List Nat → Str × Nat × List Nat
  | 0, rc, slept => ([], rc, slept)
  | fuel + 1, rc, slept =>
    if stop then ([], rc, slept)
    else
      let slept2 := if 0 < rc then slept ++ List.replicate 10 100 else slept
      let r := attempts rc
      if isValidTranslationResult r then (r, rc + 1, slept2)
      else ptLoop stop attempts fuel (rc + 1) slept2

/-- TranslationServer::performTranslation: MAX_RETRY_COUNT is 5 and each
backoff is RETRY_DELAY_MS / 100 = 10 slices of 100 ms. -/
def performTranslation (stop : Bool) (attempts : Nat → Str) : Str × Nat × List Nat :=
  ptLoop stop attempts 5 0 []

/-- First attempt index below 5 whose result passes validation. -/
def firstValidIdx (attempts : Nat → Str) : Option Nat :=
  (List.range 5).find? (fun i => isValidTranslationResult (attempts i))

/- ==========================================================================
   Configuration snapshot, credential pool, key rotation
   (TranslationServer.cpp lines 145-161 and 577-583).
   ========================================================================== -/

/-- The AppConfig struct of ConfigManager.h (temperature, a double that the
core only copies, is modelled as a rational). -/
structure AppConfig : Type where
  api_address : Str
  api_key : Str
  model_name : Str
  port : Int
  system_prompt : Str
  pre_prompt : Str
  context_num : Int
  temperature : Rat
  max_threads : Int
  language : Int
  enable_glossary : Bool
  glossary_path : Str
deriving DecidableEq

/-- QString::split on a comma, keeping empty parts. -/
def splitComma : Str → List Str
  | [] => [[]]
  | c :: cs =>
    if c == ',' then [] :: splitComma cs
    else
      match splitComma cs with
      | [] => [[c]]
      | p :: rest => (c :: p) :: rest

/-- The credential-pool rebuild of TranslationServer::updateConfig: split the
snapshot key string on commas with Qt::SkipEmptyParts (empty parts are
dropped before trimming), push back each part trimmed, reset the cursor.
Returns (m_apiKeys, m_currentKeyIndex). -/
def updateConfig (config : AppConfig) : List Str × Nat :=
  let keys := (splitComma config.api_key).filter (fun p => !p.isEmpty)
  (keys.foldl (fun acc k => acc ++ [trimL k]) [], 0)

/-- TranslationServer::getNextApiKey on explicit state (pool, cursor): empty
pool yields the empty string, otherwise the current entry is returned and the
cursor advances modulo the pool size. -/
def getNextApiKey (pool : List Str) (idx : Nat) : Str × Nat :=
  if pool.isEmpty then ([], idx)
  else (pool.getD idx [], (idx + 1) % pool.length)

/-- Results of n successive getNextApiKey calls from a given cursor. -/
def rotateN (pool : List Str) : Nat → Nat → List Str
  | _, 0 => []
  | idx, n + 1 =>
    let p := getNextApiKey pool idx
    p.1 :: rotateN pool p.2 n

/- ==========================================================================
   Upstream payload and per-attempt configuration snapshot
   (TranslationServer.cpp lines 341-418).
   ========================================================================== -/

structure ChatMsg : Type where
  role : Str
  content : Str
deriving DecidableEq

structure Payload : Type where
  model : Str
  messages : List ChatMsg
  temperature : Rat
deriving DecidableEq

def roleSystem : Str := String.toList "system"

def roleUser : Str := String.toList "user"

def roleAssistant : Str := String.toList "assistant"

/-- The fixed Translation Rules appendix added to the system prompt
(TranslationServer.cpp lines 372-380). -/
def translationRulesAppendix : Str := String.toList
  "\n\n【Translation Rules】:\n1. 🛑 PRESERVE TAGS: You will see tags like \x27[T_0]\x27, \x27[T_1]\x27.\n   - These replace newlines or code. Keep them EXACTLY as is.\n   - Input: \"Hello [T_0] World\"\n   - Output: \"你好 [T_0] 世界\"\n2. 🛑 NO CLEANUP: Do NOT remove the tags.\n3. 🔰 TERM CODES: Keep \x27Z[A-Z]{2}Z\x27 (e.g., \x27ZMCZ\x27) codes exactly as is.\n4. Translate the text BETWEEN the tags naturally.\n5. Output ONLY the translated result.\n"

/-- The Term Extraction appendix (TranslationServer.cpp lines 390-393). -/
def termExtractionAppendix : Str := String.toList
  "\n【Term Extraction】:\n1. Wrap translation in <tl>...</tl>.\n2. If you find Proper Nouns (Names) NOT in glossary, append <tm>Src=Trgt</tm> AFTER the translation.\n3. Keep <tm> tags OUTSIDE of <tl> tags.\n"

/-- The final system prompt of one attempt: configured prompt, fixed rules
appendix, then (glossary enabled) the glossary context block and (source text
longer than 5) the term-extraction appendix.  glossaryCtx stands for the
external GlossaryManager::getContextPrompt result. -/
def mkSystemPrompt (cfg : AppConfig) (glossaryCtx : Str) (text : Str) : Str :=
  cfg.system_prompt ++ translationRulesAppendix ++
    (if cfg.enable_glossary && !glossaryCtx.isEmpty then '\n' :: glossaryCtx else []) ++
    (if cfg.enable_glossary && decide (5 < text.length) then termExtractionAppendix else [])

/-- The messages array: system prompt, interleaved history pairs, current
user turn. -/
def buildMessages (sysPrompt : Str) (history : List (Str × Str)) (userContent : Str) :
    List ChatMsg :=
  ChatMsg.mk roleSystem sysPrompt ::
    ((history.map (fun p => [ChatMsg.mk roleUser p.1, ChatMsg.mk roleAssistant p.2])).flatten ++
      [ChatMsg.mk roleUser userContent])

/-- The JSON payload one attempt posts upstream, built from the configuration
snapshot cfg taken at the start of that attempt: model is the snapshot's
model_name, the user turn is pre_prompt plus the frozen text, temperature is
the snapshot's temperature. -/
def singleAttemptPayload (cfg : AppConfig) (glossaryCtx : Str) (history : List (Str × Str))
    (text : Str) : Payload :=
  let processedText := (freezeEscapesLocal text).1
  let currentUserContent := cfg.pre_prompt ++ processedText
  { model := cfg.model_name
    messages := buildMessages (mkSystemPrompt cfg glossaryCtx text) history currentUserContent
    temperature := cfg.temperature }

/-- Serialized interleaving of configuration hot-swaps and translation
attempts: update replaces the current snapshot (updateConfig), attempt reads
the current snapshot at its start and builds its payload from it. -/
inductive SrvEvent : Type
  | update : AppConfig → SrvEvent
  | attempt : Str → List (Str × Str) → Str → SrvEvent

/-- The payloads produced by a sequence of events, in order. -/
def runEvents : AppConfig → List SrvEvent → List Payload
  | _, [] => []
  | _, SrvEvent.update c :: es => runEvents c es
  | cur, SrvEvent.attempt g h t :: es =>
    singleAttemptPayload cur g h t :: runEvents cur es

/-- The configuration snapshot each attempt observes: the most recent update
before it (or the initial configuration). -/
def attemptSnapshots : AppConfig → List SrvEvent → List AppConfig
  | _, [] => []
  | _, SrvEvent.update c :: es => attemptSnapshots c es
  | cur, SrvEvent.attempt _ _ _ :: es => cur :: attemptSnapshots cur es

/- ==========================================================================
   Per-client context store (TranslationServer.cpp lines 400-410, 552-556,
   590-601).
   ========================================================================== -/

/-- Modelled from the spec: the Context struct is declared in
TranslationServer.h, which is not part of the sources; per the specification
a conversation context is an ordered sequence of (user turn, assistant turn)
pairs plus a cap.  max_len is the C++ int cap. -/
structure Ctx : Type where
  history : List (Str × Str)
  max_len : Int
deriving DecidableEq

/-- The value of an int converted to size_t (64-bit), as in the comparison
history.size() with the int cap: reduction modulo 2^64 = 18446744073709551616
(negative caps wrap to huge values). -/
def capAsSizeT (cap : Int) : Nat := (cap % 18446744073709551616).toNat

/-- The C++ comparison history.size() strictly greater than max_len, with the
implicit signed-to-unsigned conversion. -/
def sizeGtCap (sz : Nat) (cap : Int) : Bool := decide (capAsSizeT cap < sz)

/-- The trim loop: while history.size() exceeds the cap (under the unsigned
comparison), pop the front.  Fuel = initial length bounds the iterations. -/
def trimHistScan : Nat → List (Str × Str) → Int → List (Str × Str)
  | 0, h, _ => h
  | fuel + 1, h, cap => if sizeGtCap h.length cap then trimHistScan fuel h.tail cap else h

def trimHist (h : List (Str × Str)) (cap : Int) : List (Str × Str) :=
  trimHistScan h.length h cap

/-- The m_contexts map, keyed by client id. -/
abbrev Store := List (Str × Ctx)

def lookupCtx : Store → Str → Option Ctx
  | [], _ => none
  | (k, c) :: rest, id => if k == id then some c else lookupCtx rest id

/-- QMap operator-bracket access with default construction on a missing key
(the int cap of a default-constructed Context is indeterminate in C++; 0 is
used here, and no theorem depends on it). -/
def getCtx (st : Store) (id : Str) : Ctx := (lookupCtx st id).getD ⟨[], 0⟩

def setCtx : Store → Str → Ctx → Store
  | [], id, c => [(id, c)]
  | (k, c0) :: rest, id, c =>
    if k == id then (k, c) :: rest else (k, c0) :: setCtx rest id c

/-- The read step of one attempt (lines 400-404): install the snapshot cap if
it differs from the stored one, then trim from the front. -/
def readOp (st : Store) (id : Str) (cap : Int) : Store :=
  let c := getCtx st id
  let c1 := if c.max_len == cap then c else { c with max_len := cap }
  setCtx st id { c1 with history := trimHist c1.history c1.max_len }

/-- The append step after a valid attempt (lines 552-556): push the pair,
then trim to the stored cap. -/
def appendOp (st : Store) (id : Str) (p : Str × Str) : Store :=
  let c := getCtx st id
  let h1 := c.history ++ [p]
  setCtx st id { c with history := trimHist h1 c.max_len }

/-- TranslationServer::clearAllContexts. -/
def clearAllOp (_ : Store) : Store := []

/-- A context-store operation. -/
inductive StoreOp : Type
  | read : Str → Int → StoreOp
  | append : Str → Str × Str → StoreOp
  | clearAll : StoreOp

def applyOp (st : Store) : StoreOp → Store
  | StoreOp.read id cap => readOp st id cap
  | StoreOp.append id p => appendOp st id p
  | StoreOp.clearAll => clearAllOp st

def applyOps (st : Store) (ops : List StoreOp) : Store := ops.foldl applyOp st

/-- A baseline configuration value used by concrete witnesses. -/
def cfgWith (key : Str) (model : Str) : AppConfig :=
  { api_address := [], api_key := key, model_name := model, port := 6800,
    system_prompt := [], pre_prompt := [], context_num := 5, temperature := 1,
    max_threads := 8, language := 1, enable_glossary := false, glossary_path := [] }


/-- The conditional store invariant: any stored context whose cap is
non-negative is within its cap. -/
def StoreInv (st : Store) : Prop :=
  ∀ id c, lookupCtx st id = some c → 0 ≤ c.max_len →
    c.history.length ≤ c.max_len.toNat

/-- Original text of a scan decomposition (copied characters and fragments in
place). -/
def origItems : List FItem → Str
  | [] => []
  | FItem.ch c :: rest => c :: origItems rest
  | FItem.frag f :: rest => f ++ origItems rest

/-- The matched fragments of a scan decomposition, in scan order. -/
def fragsOf : List FItem → List Str
  | [] => []
  | FItem.ch _ :: rest => fragsOf rest
  | FItem.frag f :: rest => f :: fragsOf rest

/-- Rendering with an optional leading space on a fragment head: the false
mode describes the scan position after the thaw regex has consumed the
inserted space that precedes the next placeholder. -/
def renderFrom : Bool → Nat → List FItem → Str
  | _, _, [] => []
  | _, n, FItem.ch c :: rest => c :: renderFrom true n rest
  | lead, n, FItem.frag _ :: rest =>
    (if lead then [' '] else []) ++ (phKey n ++ ' ' :: renderFrom true (n + 1) rest)

/-- C1 counterexample input: a, space, LF, b. -/
def cexRoundTripInput : Str := ['a', ' ', '\n', 'b']

/-- C1 witness input: a, LF, b, tag i, x, double-braced q, escaped n. -/
def roundTripWitnessInput : Str :=
  ['a', '\n', 'b', '<', 'i', '>', 'x', '{', '{', 'q', '}', '}', '\\', 'n']

/- ==========================================================================
   Theorems.
   ========================================================================== -/

theorem foldl_push_trim (l : List Str) (acc : List Str) :
    l.foldl (fun a k => a ++ [trimL k]) acc = acc ++ l.map trimL := by
  induction l generalizing acc with
  | nil => simp
  | cons c cs ih => simp [List.foldl_cons, ih]

/-- C6 (corrected): the pool rebuilt by updateConfig is the comma-split of the
credential string with parts that are empty before trimming dropped, each
remaining part trimmed (so a whitespace-only part survives as an empty
entry), and the cursor is reset to 0 on every rebuild. -/
theorem C6_credential_pool (cfg : AppConfig) :
    (updateConfig cfg).1 =
      ((splitComma cfg.api_key).filter (fun p => !p.isEmpty)).map trimL ∧
    (updateConfig cfg).2 = 0 := by
  constructor
  · show ((splitComma cfg.api_key).filter (fun p => !p.isEmpty)).foldl
      (fun a k => a ++ [trimL k]) [] = _
    rw [foldl_push_trim]
    simp
  · rfl

/-- C6 counterexample: for the credential string of a single space, the pool
the code builds is the one-element list holding the empty string, whereas
split-then-trim-then-drop-empties yields the empty pool; in particular not
every pool entry is non-empty. -/
theorem C6_credential_pool_cex :
    (updateConfig (cfgWith [' '] [])).1 = [[]] ∧
    ((splitComma (cfgWith [' '] []).api_key).map trimL).filter (fun p => !p.isEmpty) = [] ∧
    (updateConfig (cfgWith [' '] [])).1.all (fun k => !k.isEmpty) = false := by
  decide

/-- C5 (confirmed): every attempt builds its upstream payload from the
configuration snapshot read at the start of that attempt, so the models sent
by a serialized interleaving of hot-swaps and attempts are exactly the
model_name fields of the per-attempt snapshots; in particular an updateConfig
between two attempts of one request makes the later attempt send the new
model. -/
theorem C5_hot_reload :
    (∀ (init : AppConfig) (es : List SrvEvent),
      (runEvents init es).map Payload.model =
        (attemptSnapshots init es).map AppConfig.model_name) ∧
    (∀ (c0 c1 : AppConfig) (g h t g2 h2 t2 : Str),
      (runEvents c0 [SrvEvent.attempt g [] t, SrvEvent.update c1,
          SrvEvent.attempt g2 [(h, h2)] t2]).map Payload.model =
        [c0.model_name, c1.model_name]) := by
  have main : ∀ (es : List SrvEvent) (init : AppConfig),
      (runEvents init es).map Payload.model =
        (attemptSnapshots init es).map AppConfig.model_name := by
    intro es
    induction es with
    | nil => intro init; rfl
    | cons e es ih =>
      intro init
      cases e with
      | update c => simp [runEvents, attemptSnapshots, ih]
      | attempt g h t => simp [runEvents, attemptSnapshots, ih, singleAttemptPayload]
  exact ⟨fun init es => main es init, fun c0 c1 g h t g2 h2 t2 => rfl⟩

/-- C3 (confirmed): the retry loop makes at most MAX_RETRY_COUNT = 5 attempts;
with the stop flag clear it returns the first attempt result passing
isValidTranslationResult, having made k + 1 attempts and slept k batches of
ten 100 ms backoff slices when the first valid attempt has index k, and
returns the empty string after 5 attempts (with four backoffs of ten slices)
when all results fail validation; with the stop flag set it aborts with the
empty string before any attempt. -/
theorem C3_retry_loop (a : Nat → Str) :
    (performTranslation false a =
      match firstValidIdx a with
      | some k => (a k, k + 1, List.replicate (10 * k) 100)
      | none => ([], 5, List.replicate 40 100)) ∧
    performTranslation true a = ([], 0, []) := by
  refine ⟨?_, rfl⟩
  have hr : List.range 5 = [0, 1, 2, 3, 4] := by decide
  by_cases h0 : isValidTranslationResult (a 0) = true <;>
    by_cases h1 : isValidTranslationResult (a 1) = true <;>
    by_cases h2 : isValidTranslationResult (a 2) = true <;>
    by_cases h3 : isValidTranslationResult (a 3) = true <;>
    by_cases h4 : isValidTranslationResult (a 4) = true <;>
    simp [performTranslation, ptLoop, firstValidIdx, hr, List.find?,
      h0, h1, h2, h3, h4, List.replicate]


theorem rotateN_eq (pool : List Str) (hk : 0 < pool.length) :
    ∀ (n i : Nat), i < pool.length →
      rotateN pool i n = (List.range n).map (fun t => pool.getD ((i + t) % pool.length) []) := by
  intro n
  induction n with
  | zero => intro i _; rfl
  | succ n ih =>
    intro i hi
    have hne : pool.isEmpty = false := by
      cases pool with
      | nil => simp at hk
      | cons a l => rfl
    rw [rotateN, getNextApiKey, hne]
    simp only [Bool.false_eq_true, if_false]
    rw [List.range_succ_eq_map, List.map_cons]
    congr 1
    · rw [Nat.add_zero, Nat.mod_eq_of_lt hi]
    · rw [ih ((i + 1) % pool.length) (Nat.mod_lt _ hk), List.map_map]
      have harg : ∀ t : Nat,
          ((i + 1) % pool.length + t) % pool.length = (i + Nat.succ t) % pool.length := by
        intro t
        rw [Nat.mod_add_mod]
        congr 1
        omega
      simp only [harg]
      rfl

theorem count_range_mod (k j : Nat) (hj : j < k) :
    ∀ m : Nat, ((List.range (m * k)).countP (fun t => t % k == j)) = m := by
  have hbase : ((List.range k).countP (fun t => t % k == j)) = 1 := by
    have hcongr : ∀ t ∈ List.range k, ((t % k == j) = true ↔ (t == j) = true) := by
      intro t ht
      rw [List.mem_range] at ht
      rw [Nat.mod_eq_of_lt ht]
    rw [List.countP_congr hcongr]
    rw [show ((List.range k).countP (fun t => t == j)) = (List.range k).count j from rfl]
    exact List.count_eq_one_of_mem (List.nodup_range k) (List.mem_range.mpr hj)
  intro m
  induction m with
  | zero => simp
  | succ m ih =>
    rw [Nat.succ_mul, List.range_add, List.countP_append, ih, List.countP_map]
    have hcongr : ∀ t ∈ List.range k,
        (((fun t => t % k == j) ∘ (fun x => m * k + x)) t = true ↔ (t % k == j) = true) := by
      intro t _
      simp only [Function.comp]
      rw [Nat.add_comm (m * k) t, Nat.add_mul_mod_self_right]
    rw [List.countP_congr hcongr, hbase]

theorem getD_inj_of_nodup (pool : List Str) (hn : pool.Nodup) (a b : Nat)
    (ha : a < pool.length) (hb : b < pool.length) :
    pool.getD a [] = pool.getD b [] ↔ a = b := by
  constructor
  · intro h
    rw [List.getD_eq_getElem _ _ ha, List.getD_eq_getElem _ _ hb] at h
    have hinj := List.nodup_iff_injective_get.mp hn
    have hfin : (⟨a, ha⟩ : Fin pool.length) = ⟨b, hb⟩ :=
      hinj (by simpa [List.get_eq_getElem] using h)
    simpa using hfin
  · intro h; rw [h]

/-- C7 (confirmed): starting from cursor 0 over a fixed non-empty pool of k
keys, the t-th getNextApiKey call returns the pool entry at index t mod k (an
empty pool returns the empty string), so over m times k consecutive calls
each pool entry is returned exactly m times (counting by value when the
entries are distinct). -/
theorem C7_key_rotation (pool : List Str) (m : Nat) (hk : 0 < pool.length) :
    rotateN pool 0 (m * pool.length) =
      (List.range (m * pool.length)).map (fun t => pool.getD (t % pool.length) []) ∧
    (pool.Nodup → ∀ j, j < pool.length →
      (rotateN pool 0 (m * pool.length)).count (pool.getD j []) = m) ∧
    (∀ idx n, rotateN [] idx n = List.replicate n []) := by
  refine ⟨?_, ?_, ?_⟩
  · rw [rotateN_eq pool hk _ 0 hk]
    simp
  · intro hnd j hj
    rw [rotateN_eq pool hk _ 0 hk]
    rw [List.count_eq_countP, List.countP_map]
    have hcongr : ∀ t ∈ List.range (m * pool.length),
        (((fun x => x == pool.getD j []) ∘ fun t => pool.getD ((0 + t) % pool.length) []) t = true
          ↔ (t % pool.length == j) = true) := by
      intro t _
      simp only [Function.comp, Nat.zero_add, beq_iff_eq]
      exact getD_inj_of_nodup pool hnd _ _ (Nat.mod_lt _ hk) hj
    rw [List.countP_congr hcongr]
    exact count_range_mod pool.length j hj m
  · intro idx n
    induction n generalizing idx with
    | zero => rfl
    | succ n ih => rw [rotateN, getNextApiKey]; simp [ih, List.replicate]

/-- C7 witness: a concrete pool of two keys rotated four times returns each
key exactly twice. -/
theorem C7_key_rotation_witness :
    rotateN [['a'], ['b']] 0 4 = [['a'], ['b'], ['a'], ['b']] ∧
    (rotateN [['a'], ['b']] 0 4).count ['a'] = 2 := by
  have h := C7_key_rotation [['a'], ['b']] 2 (by decide)
  refine ⟨by decide, ?_⟩
  have h2 := h.2.1 (by decide) 0 (by decide)
  simpa using h2

theorem trimHistScan_le (cap : Int) :
    ∀ (fuel : Nat) (h : List (Str × Str)), h.length ≤ fuel →
      (trimHistScan fuel h cap).length ≤ capAsSizeT cap := by
  intro fuel
  induction fuel with
  | zero =>
    intro h hl
    have : h = [] := List.length_eq_zero.mp (Nat.le_zero.mp hl)
    subst this
    simp [trimHistScan, capAsSizeT]
  | succ n ih =>
    intro h hl
    rw [trimHistScan]
    by_cases hc : sizeGtCap h.length cap = true
    · rw [if_pos hc]
      exact ih h.tail (by simp [List.length_tail]; omega)
    · rw [if_neg hc]
      have := of_decide_eq_false (Bool.eq_false_iff.mpr hc)
      omega

theorem trimHist_le (h : List (Str × Str)) (cap : Int) :
    (trimHist h cap).length ≤ capAsSizeT cap :=
  trimHistScan_le cap h.length h (Nat.le_refl _)

theorem capAsSizeT_le_toNat (cap : Int) (hc : 0 ≤ cap) : capAsSizeT cap ≤ cap.toNat := by
  unfold capAsSizeT
  omega

theorem lookupCtx_setCtx (st : Store) (id : Str) (c : Ctx) (idq : Str) :
    lookupCtx (setCtx st id c) idq = if idq = id then some c else lookupCtx st idq := by
  induction st with
  | nil =>
    by_cases h : idq = id
    · simp [setCtx, lookupCtx, h]
    · have : (id == idq) = false := by
        simp only [beq_eq_false_iff_ne]
        exact fun hh => h hh.symm
      simp [setCtx, lookupCtx, this, h]
  | cons kc rest ih =>
    obtain ⟨k, c0⟩ := kc
    by_cases hk : k = id
    · subst hk
      by_cases h : idq = k
      · subst h
        simp [setCtx, lookupCtx]
      · have hne : (k == idq) = false := by
          simp only [beq_eq_false_iff_ne]
          exact fun hh => h hh.symm
        simp [setCtx, lookupCtx, hne, h]
    · have hne : (k == id) = false := by simp [beq_eq_false_iff_ne, hk]
      by_cases h : idq = k
      · subst h
        have hne2 : idq ≠ id := fun hh => hk (hh ▸ rfl)
        simp [setCtx, lookupCtx, hne, hne2]
      · have hne2 : (k == idq) = false := by
          simp only [beq_eq_false_iff_ne]
          exact fun hh => h hh.symm
        simp [setCtx, lookupCtx, hne, hne2, ih]


theorem storeInv_applyOp (st : Store) (op : StoreOp) (h : StoreInv st) :
    StoreInv (applyOp st op) := by
  cases op with
  | read id cap =>
    intro idq c hq hcap
    rw [show applyOp st (StoreOp.read id cap) = readOp st id cap from rfl] at hq
    unfold readOp at hq
    rw [lookupCtx_setCtx] at hq
    by_cases he : idq = id
    · rw [if_pos he] at hq
      have hc := (Option.some.injEq _ _).mp hq.symm
      subst hc
      simp only
      exact Nat.le_trans (trimHist_le _ _) (capAsSizeT_le_toNat _ hcap)
    · rw [if_neg he] at hq
      exact h idq c hq hcap
  | append id p =>
    intro idq c hq hcap
    rw [show applyOp st (StoreOp.append id p) = appendOp st id p from rfl] at hq
    unfold appendOp at hq
    rw [lookupCtx_setCtx] at hq
    by_cases he : idq = id
    · rw [if_pos he] at hq
      have hc := (Option.some.injEq _ _).mp hq.symm
      subst hc
      simp only
      exact Nat.le_trans (trimHist_le _ _) (capAsSizeT_le_toNat _ hcap)
    · rw [if_neg he] at hq
      exact h idq c hq hcap
  | clearAll =>
    intro idq c hq hcap
    simp [applyOp, clearAllOp, lookupCtx] at hq

theorem storeInv_applyOps (ops : List StoreOp) :
    ∀ st : Store, StoreInv st → StoreInv (applyOps st ops) := by
  induction ops with
  | nil => intro st h; exact h
  | cons op rest ih =>
    intro st h
    exact ih (applyOp st op) (storeInv_applyOp st op h)

/-- C4 (corrected): after any sequence of context-store operations starting
from the empty store, every client context whose stored cap (the last cap
applied to it) is non-negative has history size at most that cap; the bound
as originally claimed fails for negative caps, which the unsigned trim
comparison never fires on (see the counterexample and C10). -/
theorem C4_context_bound (ops : List StoreOp) (id : Str) (c : Ctx)
    (hfind : lookupCtx (applyOps [] ops) id = some c) (hcap : 0 ≤ c.max_len) :
    c.history.length ≤ c.max_len.toNat := by
  have hinv : StoreInv (applyOps [] ops) :=
    storeInv_applyOps ops [] (by intro idq cq hq _; simp [lookupCtx] at hq)
  exact hinv id c hfind hcap

/-- C4 counterexample: read with cap 2, append one pair, then read with cap
minus 1: the stored history has one entry while the last-applied cap is minus
1, so the claimed bound (size at most the last-applied cap) is violated. -/
theorem C4_context_bound_cex :
    (getCtx (applyOps [] [StoreOp.read ['a'] 2, StoreOp.append ['a'] (['u'], ['v']),
        StoreOp.read ['a'] (-1)]) ['a']).max_len = -1 ∧
    (getCtx (applyOps [] [StoreOp.read ['a'] 2, StoreOp.append ['a'] (['u'], ['v']),
        StoreOp.read ['a'] (-1)]) ['a']).history.length = 1 ∧
    ¬(((getCtx (applyOps [] [StoreOp.read ['a'] 2, StoreOp.append ['a'] (['u'], ['v']),
        StoreOp.read ['a'] (-1)]) ['a']).history.length : Int) ≤
      (getCtx (applyOps [] [StoreOp.read ['a'] 2, StoreOp.append ['a'] (['u'], ['v']),
        StoreOp.read ['a'] (-1)]) ['a']).max_len) := by
  refine ⟨by decide, by decide, ?_⟩
  have h1 : (getCtx (applyOps [] [StoreOp.read ['a'] 2, StoreOp.append ['a'] (['u'], ['v']),
      StoreOp.read ['a'] (-1)]) ['a']).history.length = 1 := by decide
  have h2 : (getCtx (applyOps [] [StoreOp.read ['a'] 2, StoreOp.append ['a'] (['u'], ['v']),
      StoreOp.read ['a'] (-1)]) ['a']).max_len = -1 := by decide
  rw [h1, h2]
  omega

/-- C4 witness: a concrete run (read with cap 2, three appends) in which the
theorem bounds the stored history by the cap. -/
theorem C4_context_bound_witness :
    (getCtx (applyOps [] [StoreOp.read ['a'] 2, StoreOp.append ['a'] (['u'], ['v']),
        StoreOp.append ['a'] (['w'], ['x']), StoreOp.append ['a'] (['y'], ['z'])]) ['a'])
      = ⟨[(['w'], ['x']), (['y'], ['z'])], 2⟩ ∧
    ([(['w'], ['x']), (['y'], ['z'])] : List (Str × Str)).length ≤ (2 : Int).toNat := by
  refine ⟨by decide, ?_⟩
  exact C4_context_bound
    [StoreOp.read ['a'] 2, StoreOp.append ['a'] (['u'], ['v']),
      StoreOp.append ['a'] (['w'], ['x']), StoreOp.append ['a'] (['y'], ['z'])]
    ['a'] ⟨[(['w'], ['x']), (['y'], ['z'])], 2⟩ (by decide) (by decide)

/-- C10 (confirmed): when the stored cap is negative (any 32-bit int value)
the unsigned comparison history.size() against the cap never holds for any
realistic size, so neither the read step nor the append step removes entries:
a read with the same negative cap leaves the history unchanged and an append
grows it by exactly one pair. -/
theorem C10_negative_cap (cap : Int) (sz : Nat) (h1 : cap < 0)
    (h2 : -2147483648 ≤ cap) (h3 : sz < 9223372036854775808) :
    sizeGtCap sz cap = false ∧
    (∀ h : List (Str × Str), h.length = sz → trimHist h cap = h) ∧
    (∀ (st : Store) (id : Str) (p : Str × Str),
      (getCtx st id).max_len = cap → (getCtx st id).history.length = sz →
      lookupCtx (appendOp st id p) id = some ⟨(getCtx st id).history ++ [p], cap⟩) ∧
    (∀ (st : Store) (id : Str),
      (getCtx st id).max_len = cap → (getCtx st id).history.length = sz →
      lookupCtx (readOp st id cap) id = some ⟨(getCtx st id).history, cap⟩) := by
  have hfalse : ∀ n : Nat, n ≤ sz + 1 → sizeGtCap n cap = false := by
    intro n hn
    unfold sizeGtCap capAsSizeT
    simp only [decide_eq_false_iff_not]
    omega
  have htrim : ∀ h : List (Str × Str), h.length ≤ sz + 1 → trimHist h cap = h := by
    intro h hl
    unfold trimHist
    cases h with
    | nil => rfl
    | cons x xs =>
      have hc : sizeGtCap (x :: xs).length cap = false := hfalse _ hl
      simp only [List.length_cons]
      rw [trimHistScan, hc]
      simp
  refine ⟨hfalse sz (by omega), fun h hl => htrim h (by omega), ?_, ?_⟩
  · intro st id p hcap hsz
    unfold appendOp
    rw [lookupCtx_setCtx, if_pos rfl]
    rw [hcap, htrim _ (by simp [hsz])]
  · intro st id hcap hsz
    unfold readOp
    rw [lookupCtx_setCtx, if_pos rfl]
    rw [if_pos (by rw [hcap]; exact beq_self_eq_true cap)]
    rw [hcap, htrim _ (by omega)]

/-- C10 witness: with stored cap minus 1 a three-entry history is not
trimmed. -/
theorem C10_negative_cap_witness :
    sizeGtCap 3 (-1) = false ∧
    trimHist [((['a'], ['b']) : Str × Str), (['c'], ['d']), (['e'], ['f'])] (-1) =
      [(['a'], ['b']), (['c'], ['d']), (['e'], ['f'])] := by
  have h := C10_negative_cap (-1) 3 (by decide) (by decide) (by decide)
  exact ⟨h.1, h.2.1 _ (by decide)⟩

theorem startsWithL_append_self (p r : Str) : startsWithL p (p ++ r) = true := by
  induction p with
  | nil => rfl
  | cons c cs ih => simp [startsWithL, ih]

theorem breakAtSub_boundary (q pre rest : Str)
    (hpre : pre.all (fun c => !(c == '<')) = true) :
    breakAtSub ('<' :: q) (pre ++ ('<' :: q) ++ rest) = some (pre, rest) := by
  induction pre with
  | nil =>
    simp only [List.nil_append, List.cons_append]
    rw [breakAtSub]
    rw [if_pos (by rw [← List.cons_append]; exact startsWithL_append_self ('<' :: q) rest)]
    rw [← List.cons_append, List.drop_left]
  | cons c cs ih =>
    rw [List.all_cons] at hpre
    have hc : (c == '<') = false := by
      cases hcc : c == '<' with
      | false => rfl
      | true => rw [hcc] at hpre; simp at hpre
    have hcne : ('<' == c) = false := by
      simp only [beq_eq_false_iff_ne] at hc ⊢
      exact fun hh => hc hh.symm
    simp only [List.cons_append]
    rw [breakAtSub]
    rw [if_neg (by simp [startsWithL, hcne])]
    have hr := ih ((Bool.and_eq_true _ _).mp hpre).2
    simp only [List.cons_append] at hr
    rw [hr]
    rfl

/-- C8 (confirmed): after think-stripping and term reconstruction, when the
content decomposes at the first tl open tag and the first tl close tag after
it, the result is the captured group trimmed; when the lazy tl pattern has no
match, the result is the whole content trimmed; in both cases residual tl
open and close literals are then removed (case-insensitively, as in the
source). -/
theorem C8_primary_extraction :
    (∀ pre mid post : Str,
      pre.all (fun c => !(c == '<')) = true → mid.all (fun c => !(c == '<')) = true →
      extractPrimary (pre ++ tlOpenL ++ mid ++ tlCloseL ++ post) =
        removeAllCI tlCloseL (removeAllCI tlOpenL (trimL mid))) ∧
    (∀ content : Str, hasTlSpan content = false →
      extractPrimary content = removeAllCI tlCloseL (removeAllCI tlOpenL (trimL content))) := by
  constructor
  · intro pre mid post hpre hmid
    have hopen : tlOpenL = '<' :: String.toList "tl>" := by decide
    have hclose : tlCloseL = '<' :: String.toList "/tl>" := by decide
    unfold extractPrimary
    rw [hopen, hclose]
    have h1 := breakAtSub_boundary (String.toList "tl>") pre
      (mid ++ ('<' :: String.toList "/tl>") ++ post) hpre
    have h2 := breakAtSub_boundary (String.toList "/tl>") mid post hmid
    simp only [List.cons_append, List.append_assoc] at h1 h2 ⊢
    simp only [h1, h2]
  · intro content hno
    unfold extractPrimary
    unfold hasTlSpan at hno
    cases hopen : breakAtSub tlOpenL content with
    | none => simp only [hopen]
    | some po =>
      rw [hopen] at hno
      cases hclose : breakAtSub tlCloseL po.2 with
      | none => simp only [hopen, hclose]
      | some pm =>
        simp only [] at hno
        rw [hclose] at hno
        simp at hno

/-- C8 witness: a concrete decomposed content evaluated through the
theorem. -/
theorem C8_primary_extraction_witness :
    extractPrimary (String.toList "ab" ++ tlOpenL ++ String.toList " hi " ++ tlCloseL ++
        String.toList "cd")
      = removeAllCI tlCloseL (removeAllCI tlOpenL (trimL (String.toList " hi "))) :=
  C8_primary_extraction.1 (String.toList "ab") (String.toList " hi ") (String.toList "cd")
    (by decide) (by decide)

theorem startsWithL_exists (pat : Str) :
    ∀ l : Str, startsWithL pat l = true → l = pat ++ l.drop pat.length := by
  induction pat with
  | nil => intro l _; simp
  | cons a as ih =>
    intro l h
    cases l with
    | nil => simp [startsWithL] at h
    | cons b bs =>
      rw [startsWithL] at h
      obtain ⟨h1, h2⟩ := (Bool.and_eq_true _ _).mp h
      have hab : a = b := eq_of_beq h1
      subst hab
      simp only [List.length_cons, List.drop_succ_cons, List.cons_append, List.cons.injEq,
        true_and]
      exact ih bs h2

theorem breakAtChar_eq (ch : Char) :
    ∀ (l : Str) (p : Str × Str), breakAtChar ch l = some p → l = p.1 ++ ch :: p.2 := by
  intro l
  induction l with
  | nil => intro p h; simp [breakAtChar] at h
  | cons c cs ih =>
    intro p h
    rw [breakAtChar] at h
    by_cases hc : (c == ch) = true
    · rw [if_pos hc] at h
      have hp := (Option.some.injEq _ _).mp h.symm
      subst hp
      simp [eq_of_beq hc]
    · rw [if_neg hc] at h
      cases hcc : breakAtChar ch cs with
      | none => rw [hcc] at h; simp at h
      | some q =>
        rw [hcc] at h
        have hp := (Option.some.injEq _ _).mp h.symm
        subst hp
        simp only [List.cons_append]
        rw [← ih q hcc]

theorem breakAtSub_eq (pat : Str) :
    ∀ (l : Str) (p : Str × Str), breakAtSub pat l = some p → l = p.1 ++ pat ++ p.2 := by
  intro l
  induction l with
  | nil => intro p h; simp [breakAtSub] at h
  | cons c cs ih =>
    intro p h
    rw [breakAtSub] at h
    by_cases hc : startsWithL pat (c :: cs) = true
    · rw [if_pos hc] at h
      have hp := (Option.some.injEq _ _).mp h.symm
      subst hp
      simp only [List.nil_append]
      exact startsWithL_exists pat (c :: cs) hc
    · rw [if_neg hc] at h
      cases hcc : breakAtSub pat cs with
      | none => rw [hcc] at h; simp at h
      | some q =>
        rw [hcc] at h
        have hp := (Option.some.injEq _ _).mp h.symm
        subst hp
        simp only [List.cons_append, List.append_assoc] at ih ⊢
        rw [← ih q hcc]

theorem validTerm_cascade (k v : Str) :
    (if k.isEmpty || v.isEmpty then false
     else if containsTermToken k || containsTermToken v then false
     else if containsTermCode k || containsTermCode v then false
     else true) = validTermSpec k v := by
  unfold validTermSpec
  cases hk : k.isEmpty <;> cases hv : v.isEmpty <;>
    cases h1 : containsTermToken k <;> cases h2 : containsTermToken v <;>
    cases h3 : containsTermCode k <;> cases h4 : containsTermCode v <;>
    simp [hk, hv, h1, h2, h3, h4]

theorem tmScan_char (pt : Str) :
    ∀ (n : Nat) (l : Str), l.length ≤ n → ∀ fuel : Nat, l.length ≤ fuel →
      tmScan pt fuel l =
        match firstTmMatch l with
        | none => (l, [])
        | some (pre, rawK, rawV, rest) =>
          (pre ++ trimL rawV ++ (tmScan pt rest.length rest).1,
            (trimL rawK, trimL rawV,
              validTermSpec (trimL rawK) (trimL rawV) &&
                containsSubCI (trimL rawK) pt) :: (tmScan pt rest.length rest).2) := by
  intro n
  induction n with
  | zero =>
    intro l hl fuel _
    have : l = [] := List.length_eq_zero.mp (Nat.le_zero.mp hl)
    subst this
    cases fuel <;> rfl
  | succ n ih =>
    intro l hl fuel hf
    cases l with
    | nil => cases fuel <;> rfl
    | cons c cs =>
      obtain ⟨f, rfl⟩ : ∃ f, fuel = f + 1 := ⟨fuel - 1, by simp at hf; omega⟩
      have hlcs : cs.length ≤ n := by simp at hl; omega
      have hfcs : cs.length ≤ f := by simp at hf; omega
      rw [tmScan, firstTmMatch]
      by_cases hsw : startsWithL tmOpenL (c :: cs) = true
      · rw [if_pos hsw, if_pos hsw]
        cases hpk : breakAtChar '=' ((c :: cs).drop 4) with
        | none =>
          simp only [hpk]
          have h1 := ih cs hlcs f hfcs
          have h2 := ih cs hlcs cs.length (Nat.le_refl _)
          cases hm : firstTmMatch cs with
          | none =>
            rw [hm] at h1
            simp [h1]
          | some q =>
            obtain ⟨pre, rawK, rawV, rest⟩ := q
            rw [hm] at h1
            simp [h1]
        | some pk =>
          simp only [hpk]
          cases hpv : breakAtSub tmCloseL pk.2 with
          | none =>
            simp only [hpv]
            have h1 := ih cs hlcs f hfcs
            cases hm : firstTmMatch cs with
            | none =>
              rw [hm] at h1
              simp [h1]
            | some q =>
              obtain ⟨pre, rawK, rawV, rest⟩ := q
              rw [hm] at h1
              simp [h1]
          | some pv =>
            simp only [hpv]
            have hd := breakAtChar_eq '=' ((c :: cs).drop 4) pk hpk
            have hc2 := breakAtSub_eq tmCloseL pk.2 pv hpv
            have hld := congrArg List.length hd
            have hlc := congrArg List.length hc2
            have hlen5 : tmCloseL.length = 5 := by decide
            simp only [List.length_append, List.length_cons, List.length_drop, hlen5] at hld hlc
            have hrest : pv.2.length ≤ n ∧ pv.2.length ≤ f := by
              constructor <;> omega
            have h1 := ih pv.2 hrest.1 f hrest.2
            have h2 := ih pv.2 hrest.1 pv.2.length (Nat.le_refl _)
            have h12 : tmScan pt f pv.2 = tmScan pt pv.2.length pv.2 := h1.trans h2.symm
            simp only [validTerm_cascade, h12, List.nil_append]
      · rw [if_neg hsw, if_neg hsw]
        have h1 := ih cs hlcs f hfcs
        cases hm : firstTmMatch cs with
        | none =>
          rw [hm] at h1
          simp [h1]
        | some q =>
          obtain ⟨pre, rawK, rawV, rest⟩ := q
          rw [hm] at h1
          simp [h1]

/-- C2 (confirmed): on the think-stripped assistant content, the tm
reconstruction replaces each matched tm span by just the trimmed right-hand
side, recording for each span the trimmed key and value, and announces the
term to the glossary (addNewTerm plus a newTerm event) exactly when the term
is valid per validTermSpec (both trimmed sides non-empty, no placeholder
token, no term code) and the key occurs case-insensitively in the processed
post-freeze text. -/
theorem C2_term_harvest (pt raw : Str) :
    tmReconstruct pt (stripThink raw) =
      match firstTmMatch (stripThink raw) with
      | none => (stripThink raw, [])
      | some (pre, rawK, rawV, rest) =>
        (pre ++ trimL rawV ++ (tmReconstruct pt rest).1,
          (trimL rawK, trimL rawV,
            validTermSpec (trimL rawK) (trimL rawV) &&
              containsSubCI (trimL rawK) pt) :: (tmReconstruct pt rest).2) :=
  tmScan_char pt (stripThink raw).length (stripThink raw) (Nat.le_refl _)
    (stripThink raw).length (Nat.le_refl _)

/- ==========================================================================
   Codec lemmas for C1 and C9.
   ========================================================================== -/

theorem digitChar_toNat (d : Nat) (hd : d < 10) : (digitChar d).toNat = 48 + d := by
  interval_cases d <;> decide

theorem digitChar_isDigit (d : Nat) (hd : d < 10) : (digitChar d).isDigit = true := by
  interval_cases d <;> decide

theorem valOfDigits_append_one (xs : Str) (c : Char) :
    valOfDigits (xs ++ [c]) = valOfDigits xs * 10 + (c.toNat - 48) := by
  unfold valOfDigits
  rw [List.foldl_append]
  rfl

theorem natDigitsF_spec :
    ∀ (fuel n : Nat), n < fuel →
      valOfDigits (natDigitsF fuel n) = n ∧ natDigitsF fuel n ≠ [] ∧
        (∀ c ∈ natDigitsF fuel n, c.isDigit = true) := by
  intro fuel
  induction fuel with
  | zero => intro n hn; omega
  | succ fuel ih =>
    intro n hn
    rw [natDigitsF]
    by_cases h10 : n < 10
    · rw [if_pos h10]
      refine ⟨?_, by simp, ?_⟩
      · unfold valOfDigits
        simp [digitChar_toNat n h10]
      · intro c hc
        simp at hc
        subst hc
        exact digitChar_isDigit n h10
    · rw [if_neg h10]
      have hdiv : n / 10 < fuel := by omega
      obtain ⟨hval, hne, hdig⟩ := ih (n / 10) hdiv
      refine ⟨?_, by simp, ?_⟩
      · rw [valOfDigits_append_one, hval, digitChar_toNat (n % 10) (by omega)]
        omega
      · intro c hc
        rw [List.mem_append] at hc
        rcases hc with hc | hc
        · exact hdig c hc
        · simp at hc
          subst hc
          exact digitChar_isDigit (n % 10) (by omega)

theorem natDigits_val (n : Nat) : valOfDigits (natDigits n) = n :=
  (natDigitsF_spec (n + 1) n (Nat.lt_succ_self n)).1

theorem natDigits_ne_nil (n : Nat) : natDigits n ≠ [] :=
  (natDigitsF_spec (n + 1) n (Nat.lt_succ_self n)).2.1

theorem natDigits_digits (n : Nat) : ∀ c ∈ natDigits n, c.isDigit = true :=
  (natDigitsF_spec (n + 1) n (Nat.lt_succ_self n)).2.2

theorem natDigits_inj (a b : Nat) (h : natDigits a = natDigits b) : a = b := by
  have := natDigits_val a
  rw [h, natDigits_val b] at this
  omega

theorem phKey_inj (a b : Nat) (h : phKey a = phKey b) : a = b := by
  unfold phKey at h
  simp only [List.cons.injEq, true_and] at h
  exact natDigits_inj a b (List.append_cancel_right h)

theorem firstSome_mem {α : Type} :
    ∀ (xs : List (Option α)) (a : α), firstSome xs = some a → some a ∈ xs := by
  intro xs
  induction xs with
  | nil => intro a h; simp [firstSome] at h
  | cons x rest ih =>
    intro a h
    cases x with
    | some b => rw [firstSome] at h; simp [h]
    | none => rw [firstSome] at h; exact List.mem_cons_of_mem _ (ih a h)

theorem firstSome_isSome {α : Type} :
    ∀ xs : List (Option α), (∃ x ∈ xs, x.isSome = true) → (firstSome xs).isSome = true := by
  intro xs
  induction xs with
  | nil => intro h; simp at h
  | cons x rest ih =>
    intro h
    cases x with
    | some b => rfl
    | none =>
      rw [firstSome]
      apply ih
      obtain ⟨y, hy, hys⟩ := h
      rcases List.mem_cons.mp hy with hh | hh
      · subst hh; simp at hys
      · exact ⟨y, hh, hys⟩

theorem findCloseBraces_eq :
    ∀ (l : Str) (p : Str × Str), findCloseBraces l = some p → l = p.1 ++ '}' :: '}' :: p.2 := by
  intro l
  induction l with
  | nil => intro p h; simp [findCloseBraces] at h
  | cons c cs ih =>
    intro p h
    rw [findCloseBraces] at h
    by_cases hc : startsWithL ['}', '}'] (c :: cs) = true
    · rw [if_pos hc] at h
      have hex := startsWithL_exists ['}', '}'] (c :: cs) hc
      have hp := (Option.some.injEq _ _).mp h.symm
      subst hp
      simpa using hex
    · rw [if_neg hc] at h
      by_cases hn : (c == '\n') = true
      · rw [if_pos hn] at h; simp at h
      · rw [if_neg hn] at h
        cases hcc : findCloseBraces cs with
        | none => rw [hcc] at h; simp at h
        | some q =>
          rw [hcc] at h
          have hp := (Option.some.injEq _ _).mp h.symm
          subst hp
          simp only [List.cons_append, List.cons.injEq, true_and]
          exact ih q hcc

theorem takeUntilGt_eq :
    ∀ (l : Str) (p : Str × Str), takeUntilGt l = some p → l = p.1 ++ '>' :: p.2 := by
  intro l
  induction l with
  | nil => intro p h; simp [takeUntilGt] at h
  | cons c cs ih =>
    intro p h
    rw [takeUntilGt] at h
    by_cases hc : (c == '>') = true
    · rw [if_pos hc] at h
      have hp := (Option.some.injEq _ _).mp h.symm
      subst hp
      simp [eq_of_beq hc]
    · rw [if_neg hc] at h
      cases hcc : takeUntilGt cs with
      | none => rw [hcc] at h; simp at h
      | some q =>
        rw [hcc] at h
        have hp := (Option.some.injEq _ _).mp h.symm
        subst hp
        simp only [List.cons_append, List.cons.injEq, true_and]
        exact ih q hcc

theorem matchBraces_eq (l : Str) (p : Str × Str) (h : matchBraces l = some p) :
    p.1 ++ p.2 = l ∧ p.1 ≠ [] := by
  unfold matchBraces at h
  by_cases hs : startsWithL ['{', '{'] l = true
  · rw [if_pos hs] at h
    cases hf : findCloseBraces (l.drop 2) with
    | none => rw [hf] at h; simp at h
    | some q =>
      rw [hf] at h
      have hp := (Option.some.injEq _ _).mp h.symm
      subst hp
      have hc := findCloseBraces_eq (l.drop 2) q hf
      have hex := startsWithL_exists ['{', '{'] l hs
      have hex2 : l = ['{', '{'] ++ List.drop 2 l := by simpa using hex
      constructor
      · conv_rhs => rw [hex2, hc]
        simp
      · simp
  · rw [if_neg hs] at h; simp at h

theorem matchTag_eq (l : Str) (p : Str × Str) (h : matchTag l = some p) :
    p.1 ++ p.2 = l ∧ p.1 ≠ [] := by
  unfold matchTag at h
  by_cases hs : startsWithL ['<'] l = true
  · rw [if_pos hs] at h
    cases hf : takeUntilGt (l.drop 1) with
    | none => rw [hf] at h; simp at h
    | some q =>
      rw [hf] at h
      have h2 : (if q.1.isEmpty = true then none
          else some ('<' :: (q.1 ++ ['>']), q.2)) = some p := h
      by_cases hq : q.1.isEmpty = true
      · rw [if_pos hq] at h2; simp at h2
      · rw [if_neg hq] at h2
        have hp := (Option.some.injEq _ _).mp h2.symm
        subst hp
        have hc := takeUntilGt_eq (l.drop 1) q hf
        have hex := startsWithL_exists ['<'] l hs
        have hex2 : l = ['<'] ++ List.drop 1 l := by simpa using hex
        constructor
        · conv_rhs => rw [hex2, hc]
          simp
        · simp
  · rw [if_neg hs] at h; simp at h

theorem matchLit_eq (pat l : Str) (p : Str × Str) (h : matchLit pat l = some p) :
    p.1 ++ p.2 = l ∧ p.1 ≠ [] := by
  unfold matchLit at h
  by_cases he : pat.isEmpty = true
  · rw [if_pos he] at h; simp at h
  · rw [if_neg he] at h
    by_cases hs : startsWithL pat l = true
    · rw [if_pos hs] at h
      have hp := (Option.some.injEq _ _).mp h.symm
      subst hp
      refine ⟨(startsWithL_exists pat l hs).symm, fun hh => he ?_⟩
      have hp2 : pat = [] := hh
      rw [hp2]
      rfl
    · rw [if_neg hs] at h; simp at h

theorem matchFreezeAt_eq (l : Str) (p : Str × Str) (h : matchFreezeAt l = some p) :
    p.1 ++ p.2 = l ∧ p.1 ≠ [] := by
  unfold matchFreezeAt at h
  have hm := firstSome_mem _ _ h
  simp only [freezePats, List.map, List.mem_cons, List.not_mem_nil, or_false] at hm
  rcases hm with hh | hh | hh | hh | hh | hh | hh | hh | hh | hh
  · exact matchBraces_eq l p hh.symm
  · exact matchTag_eq l p hh.symm
  all_goals exact matchLit_eq _ l p hh.symm



theorem origItems_map_ch (l : Str) : origItems (l.map FItem.ch) = l := by
  induction l with
  | nil => rfl
  | cons c cs ih => simp [origItems, ih]

theorem freezeScan_orig : ∀ (fuel : Nat) (l : Str), origItems (freezeScan fuel l) = l := by
  intro fuel
  induction fuel with
  | zero => intro l; exact origItems_map_ch l
  | succ n ih =>
    intro l
    cases l with
    | nil => rfl
    | cons c cs =>
      rw [freezeScan]
      cases hm : matchFreezeAt (c :: cs) with
      | none => simp [origItems, ih]
      | some p =>
        obtain ⟨hcons, _⟩ := matchFreezeAt_eq (c :: cs) p hm
        simp only [origItems, ih]
        exact hcons

theorem matchLit_self (pat rest : Str) (hne : pat.isEmpty = false) :
    matchLit pat (pat ++ rest) = some (pat, rest) := by
  unfold matchLit
  rw [hne]
  simp only [Bool.false_eq_true, if_false]
  rw [if_pos (startsWithL_append_self pat rest)]
  rw [List.drop_left]

theorem mfa_isSome_of_lit (l pat : Str) (hp : pat ∈ freezePats)
    (h : (matchLit pat l).isSome = true) : (matchFreezeAt l).isSome = true := by
  unfold matchFreezeAt
  apply firstSome_isSome
  exact ⟨matchLit pat l, by
    simp only [List.mem_cons]
    right; right
    exact List.mem_map.mpr ⟨pat, hp, rfl⟩, h⟩

theorem mfa_some_tab (cs : Str) : (matchFreezeAt ('\t' :: cs)).isSome = true := by
  apply mfa_isSome_of_lit _ ['\t'] (by simp [freezePats])
  rw [show ('\t' :: cs : Str) = ['\t'] ++ cs from rfl, matchLit_self ['\t'] cs rfl]
  rfl

theorem mfa_some_lf (cs : Str) : (matchFreezeAt ('\n' :: cs)).isSome = true := by
  apply mfa_isSome_of_lit _ ['\n'] (by simp [freezePats])
  rw [show ('\n' :: cs : Str) = ['\n'] ++ cs from rfl, matchLit_self ['\n'] cs rfl]
  rfl

theorem mfa_some_cr (cs : Str) : (matchFreezeAt ('\r' :: cs)).isSome = true := by
  apply mfa_isSome_of_lit _ ['\r'] (by simp [freezePats])
  rw [show ('\r' :: cs : Str) = ['\r'] ++ cs from rfl, matchLit_self ['\r'] cs rfl]
  rfl

/-- Copied characters of a clean input are never whitespace and never an open
square bracket: space, VT, FF and the bracket are excluded by cleanChar, and
TAB, LF, CR always match the freeze regex. -/
theorem freezeScan_good :
    ∀ (fuel : Nat) (l : Str), l.length ≤ fuel → l.all cleanChar = true →
      ∀ c, FItem.ch c ∈ freezeScan fuel l → isWs c = false ∧ c ≠ '[' := by
  intro fuel
  induction fuel with
  | zero =>
    intro l hl _ c hc
    have : l = [] := List.length_eq_zero.mp (Nat.le_zero.mp hl)
    subst this
    simp [freezeScan] at hc
  | succ n ih =>
    intro l hl hcl c hc
    cases l with
    | nil => simp [freezeScan] at hc
    | cons a cs =>
      rw [freezeScan] at hc
      cases hm : matchFreezeAt (a :: cs) with
      | some p =>
        rw [hm] at hc
        obtain ⟨hcons, hne⟩ := matchFreezeAt_eq (a :: cs) p hm
        rcases List.mem_cons.mp hc with hh | hh
        · exact absurd hh (by simp)
        · have hlen : p.2.length ≤ n := by
            have := congrArg List.length hcons
            simp only [List.length_append, List.length_cons] at this hl
            have hp1 : 0 < p.1.length := List.length_pos.mpr hne
            omega
          have hall : p.2.all cleanChar = true := by
            have hx : (p.1 ++ p.2).all cleanChar = true := by rw [hcons]; exact hcl
            rw [List.all_append] at hx
            exact ((Bool.and_eq_true _ _).mp hx).2
          exact ih p.2 hlen hall c hh
      | none =>
        rw [hm] at hc
        rcases List.mem_cons.mp hc with hh | hh
        · have hac : a = c := by
            have := (FItem.ch.injEq _ _).mp hh.symm
            exact this
          subst hac
          rw [List.all_cons] at hcl
          have hclean := ((Bool.and_eq_true _ _).mp hcl).1
          unfold cleanChar at hclean
          simp only [Bool.not_eq_eq_eq_not, Bool.not_true, Bool.or_eq_false_iff,
            beq_eq_false_iff_ne] at hclean
          obtain ⟨⟨⟨hsp, hvt⟩, hff⟩, hbr⟩ := hclean
          have htab : a ≠ '\t' := by
            intro hh2
            subst hh2
            rw [(Option.isSome_iff_exists.mp (mfa_some_tab cs)).choose_spec] at hm
            simp at hm
          have hlf : a ≠ '\n' := by
            intro hh2
            subst hh2
            rw [(Option.isSome_iff_exists.mp (mfa_some_lf cs)).choose_spec] at hm
            simp at hm
          have hcr : a ≠ '\r' := by
            intro hh2
            subst hh2
            rw [(Option.isSome_iff_exists.mp (mfa_some_cr cs)).choose_spec] at hm
            simp at hm
          constructor
          · unfold isWs
            simp only [Bool.or_eq_false_iff, beq_eq_false_iff_ne]
            exact ⟨⟨⟨⟨⟨hsp, htab⟩, hlf⟩, hvt⟩, hff⟩, hcr⟩
          · exact hbr
        · rw [List.all_cons] at hcl
          exact ih cs (by simp at hl; omega) ((Bool.and_eq_true _ _).mp hcl).2 c hh


theorem renderFrom_true_eq (items : List FItem) :
    ∀ n : Nat, renderFrom true n items = renderItems n items := by
  induction items with
  | nil => intro n; rfl
  | cons it rest ih =>
    intro n
    cases it with
    | ch c => simp [renderFrom, renderItems, ih]
    | frag f => simp [renderFrom, renderItems, ih]

theorem renderFrom_false_le (items : List FItem) (n : Nat) :
    (renderFrom false n items).length ≤ (renderFrom true n items).length := by
  cases items with
  | nil => exact Nat.le_refl _
  | cons it rest =>
    cases it with
    | ch c => exact Nat.le_refl _
    | frag f => simp [renderFrom]

theorem isWs_space : isWs ' ' = true := by decide

theorem isWs_bracket : isWs '[' = false := by decide

theorem wsRun_cons_ws (c : Char) (cs : Str) (h : isWs c = true) :
    wsRun (c :: cs) = (c :: (wsRun cs).1, (wsRun cs).2) := by
  rw [wsRun, if_pos h]

theorem wsRun_cons_nonws (c : Char) (cs : Str) (h : isWs c = false) :
    wsRun (c :: cs) = ([], c :: cs) := by
  rw [wsRun, if_neg (by rw [h]; exact Bool.false_ne_true)]

theorem digitRun_digits (ds : Str) (hds : ∀ c ∈ ds, c.isDigit = true) (x : Char)
    (hx : x.isDigit = false) (r : Str) : digitRun (ds ++ x :: r) = (ds, x :: r) := by
  induction ds with
  | nil =>
    rw [List.nil_append, digitRun, if_neg (by rw [hx]; exact Bool.false_ne_true)]
  | cons d ds ih =>
    have hd : d.isDigit = true := hds d (List.mem_cons_self d ds)
    rw [List.cons_append, digitRun, if_pos hd,
      ih (fun c hc => hds c (List.mem_cons_of_mem d hc))]

theorem matchThawAt_nonws (c : Char) (cs : Str) (h1 : isWs c = false) (h2 : c ≠ '[') :
    matchThawAt (c :: cs) = none := by
  unfold matchThawAt
  rw [wsRun_cons_nonws c cs h1]
  simp only
  rw [if_neg]
  rw [startsWithL]
  simp [beq_eq_false_iff_ne.mpr (fun hh => h2 hh.symm)]

theorem wsRun_ws_leading (W : Str) (hW : ∀ w ∈ W, isWs w = true) (x : Char)
    (hx : isWs x = false) (r : Str) : wsRun (W ++ x :: r) = (W, x :: r) := by
  induction W with
  | nil => rw [List.nil_append]; exact wsRun_cons_nonws x r hx
  | cons w ws ih =>
    rw [List.cons_append, wsRun_cons_ws w _ (hW w (List.mem_cons_self w ws)),
      ih (fun a ha => hW a (List.mem_cons_of_mem w ha))]

theorem matchThawAt_placeholder (W : Str) (hW : ∀ w ∈ W, isWs w = true) (n : Nat)
    (tail : Str) :
    matchThawAt (W ++ ('[' :: 'T' :: '_' :: (natDigits n ++ ']' :: tail)))
      = some (natDigits n, (wsRun tail).2) := by
  unfold matchThawAt
  rw [wsRun_ws_leading W hW '[' isWs_bracket _]
  simp only
  rw [if_pos (by simp [startsWithL])]
  simp only [List.drop_succ_cons, List.drop_zero]
  rw [digitRun_digits (natDigits n) (natDigits_digits n) ']' (by decide) tail]
  simp only
  rw [if_neg (by simp [natDigits_ne_nil n])]
  rw [if_pos (by simp [startsWithL])]
  simp

theorem lookupL_mapItems (items : List FItem) :
    ∀ (k i : Nat), i < (fragsOf items).length →
      lookupL (mapItems k items) (phKey (k + i)) = some ((fragsOf items).getD i []) := by
  induction items with
  | nil => intro k i hi; simp [fragsOf] at hi
  | cons it rest ih =>
    intro k i hi
    cases it with
    | ch c =>
      rw [show mapItems k (FItem.ch c :: rest) = mapItems k rest from rfl]
      rw [show fragsOf (FItem.ch c :: rest) = fragsOf rest from rfl] at hi ⊢
      exact ih k i hi
    | frag f =>
      rw [show mapItems k (FItem.frag f :: rest) = (phKey k, f) :: mapItems (k + 1) rest
        from rfl]
      rw [show fragsOf (FItem.frag f :: rest) = f :: fragsOf rest from rfl] at hi ⊢
      cases i with
      | zero =>
        rw [lookupL]
        rw [if_pos (by rw [Nat.add_zero]; exact beq_self_eq_true _)]
        simp
      | succ i =>
        rw [lookupL]
        rw [if_neg (by
          intro hkey
          have := phKey_inj _ _ (eq_of_beq hkey)
          omega)]
        rw [show k + (i + 1) = (k + 1) + i by omega]
        rw [ih (k + 1) i (by simp at hi; omega)]
        simp

theorem wsRun_render (k : Nat) (rest : List FItem)
    (good : ∀ c, FItem.ch c ∈ rest → isWs c = false ∧ c ≠ '[') :
    (wsRun (' ' :: renderFrom true k rest)).2 = renderFrom false k rest := by
  cases rest with
  | nil => rfl
  | cons it r2 =>
    cases it with
    | ch c =>
      have hc := good c (List.mem_cons_self _ _)
      rw [show renderFrom true k (FItem.ch c :: r2) = c :: renderFrom true k r2 from rfl]
      rw [wsRun_cons_ws ' ' _ isWs_space, wsRun_cons_nonws c _ hc.1]
      rfl
    | frag g =>
      rw [show renderFrom true k (FItem.frag g :: r2)
          = ' ' :: ('[' :: ('T' :: '_' :: (natDigits k ++ [']'])
            ++ (' ' :: renderFrom true (k + 1) r2))) from rfl]
      rw [wsRun_cons_ws ' ' _ isWs_space, wsRun_cons_ws ' ' _ isWs_space,
        wsRun_cons_nonws '[' _ isWs_bracket]
      rfl

theorem thawScan_render (m : List (Str × Str)) :
    ∀ items : List FItem,
      (∀ c, FItem.ch c ∈ items → isWs c = false ∧ c ≠ '[') →
      ∀ (lead : Bool) (n fuel : Nat), (renderFrom lead n items).length ≤ fuel →
      (∀ i, i < (fragsOf items).length →
        lookupL m (phKey (n + i)) = some ((fragsOf items).getD i [])) →
      thawScan fuel m (renderFrom lead n items) = origItems items := by
  intro items
  induction items with
  | nil =>
    intro _ lead n fuel _ _
    cases lead <;> cases fuel <;> rfl
  | cons it rest ih =>
    intro good lead n fuel hf mapOK
    have hgr : ∀ a, FItem.ch a ∈ rest → isWs a = false ∧ a ≠ '[' :=
      fun a ha => good a (List.mem_cons_of_mem _ ha)
    cases it with
    | ch c =>
      have hc := good c (List.mem_cons_self _ _)
      have hch : renderFrom lead n (FItem.ch c :: rest) = c :: renderFrom true n rest := by
        cases lead <;> rfl
      rw [hch] at hf ⊢
      obtain ⟨f, rfl⟩ : ∃ f, fuel = f + 1 := ⟨fuel - 1, by simp at hf; omega⟩
      rw [thawScan, matchThawAt_nonws c _ hc.1 hc.2]
      rw [ih hgr true n f (by simp at hf; omega) mapOK]
      rfl
    | frag g =>
      have hmap0 : lookupL m ('[' :: 'T' :: '_' :: (natDigits n ++ [']'])) = some g := by
        have h0 := mapOK 0 (by simp [fragsOf])
        rw [Nat.add_zero] at h0
        simpa [phKey, fragsOf] using h0
      have hmap2 : ∀ i, i < (fragsOf rest).length →
          lookupL m (phKey ((n + 1) + i)) = some ((fragsOf rest).getD i []) := by
        intro i hi
        have h1 := mapOK (i + 1) (by simp [fragsOf]; omega)
        rw [show n + (i + 1) = (n + 1) + i by omega] at h1
        simpa [fragsOf, List.getD_cons_succ] using h1
      have hfl := renderFrom_false_le rest (n + 1)
      have hws := wsRun_render (n + 1) rest hgr
      cases lead with
      | true =>
        rw [show renderFrom true n (FItem.frag g :: rest)
            = ' ' :: ('[' :: ('T' :: '_' :: (natDigits n ++ [']'])
              ++ (' ' :: renderFrom true (n + 1) rest))) from rfl] at hf ⊢
        obtain ⟨f, rfl⟩ : ∃ f, fuel = f + 1 := ⟨fuel - 1, by simp at hf; omega⟩
        have hmta : matchThawAt (' ' :: ('[' :: ('T' :: '_' :: (natDigits n ++ [']'])
            ++ (' ' :: renderFrom true (n + 1) rest))))
            = some (natDigits n, (wsRun (' ' :: renderFrom true (n + 1) rest)).2) := by
          have hform : (' ' :: ('[' :: ('T' :: '_' :: (natDigits n ++ [']'])
              ++ (' ' :: renderFrom true (n + 1) rest))) : Str)
              = [' '] ++ ('[' :: 'T' :: '_' :: (natDigits n
                ++ ']' :: (' ' :: renderFrom true (n + 1) rest))) := by
            simp [List.append_assoc]
          rw [hform]
          exact matchThawAt_placeholder [' '] (by simp [isWs_space]) n _
        rw [thawScan]
        simp only [hmta, hws, hmap0]
        rw [ih hgr false (n + 1) f (by simp at hf; omega) hmap2]
        rfl
      | false =>
        rw [show renderFrom false n (FItem.frag g :: rest)
            = '[' :: ('T' :: '_' :: (natDigits n ++ [']'])
              ++ (' ' :: renderFrom true (n + 1) rest)) from rfl] at hf ⊢
        obtain ⟨f, rfl⟩ : ∃ f, fuel = f + 1 := ⟨fuel - 1, by simp at hf; omega⟩
        have hmta : matchThawAt ('[' :: ('T' :: '_' :: (natDigits n ++ [']'])
            ++ (' ' :: renderFrom true (n + 1) rest)))
            = some (natDigits n, (wsRun (' ' :: renderFrom true (n + 1) rest)).2) := by
          have hform : ('[' :: ('T' :: '_' :: (natDigits n ++ [']'])
              ++ (' ' :: renderFrom true (n + 1) rest)) : Str)
              = [] ++ ('[' :: 'T' :: '_' :: (natDigits n
                ++ ']' :: (' ' :: renderFrom true (n + 1) rest))) := by
            simp [List.append_assoc]
          rw [hform]
          exact matchThawAt_placeholder [] (by simp) n _
        rw [thawScan]
        simp only [hmta, hws, hmap0]
        rw [ih hgr false (n + 1) f (by simp at hf; omega) hmap2]
        rfl

theorem renderItems_append (A B : List FItem) :
    ∀ n, renderItems n (A ++ B) = renderItems n A ++ renderItems (n + (fragsOf A).length) B := by
  induction A with
  | nil => intro n; simp [renderItems, fragsOf]
  | cons it rest ih =>
    intro n
    cases it with
    | ch c =>
      rw [List.cons_append]
      rw [show renderItems n (FItem.ch c :: (rest ++ B)) = c :: renderItems n (rest ++ B)
        from rfl]
      rw [show renderItems n (FItem.ch c :: rest) = c :: renderItems n rest from rfl]
      rw [ih n]
      rfl
    | frag g =>
      rw [List.cons_append]
      rw [show renderItems n (FItem.frag g :: (rest ++ B))
        = (' ' :: (phKey n ++ [' '])) ++ renderItems (n + 1) (rest ++ B) from rfl]
      rw [show renderItems n (FItem.frag g :: rest)
        = (' ' :: (phKey n ++ [' '])) ++ renderItems (n + 1) rest from rfl]
      rw [ih (n + 1)]
      rw [show fragsOf (FItem.frag g :: rest) = g :: fragsOf rest from rfl]
      rw [show n + (g :: fragsOf rest).length = (n + 1) + (fragsOf rest).length by
        simp; omega]
      simp [List.append_assoc]

theorem mapItems_append (A B : List FItem) :
    ∀ n, mapItems n (A ++ B) = mapItems n A ++ mapItems (n + (fragsOf A).length) B := by
  induction A with
  | nil => intro n; simp [mapItems, fragsOf]
  | cons it rest ih =>
    intro n
    cases it with
    | ch c =>
      rw [List.cons_append]
      rw [show mapItems n (FItem.ch c :: (rest ++ B)) = mapItems n (rest ++ B) from rfl]
      rw [show mapItems n (FItem.ch c :: rest) = mapItems n rest from rfl]
      exact ih n
    | frag g =>
      rw [List.cons_append]
      rw [show mapItems n (FItem.frag g :: (rest ++ B))
        = (phKey n, g) :: mapItems (n + 1) (rest ++ B) from rfl]
      rw [show mapItems n (FItem.frag g :: rest)
        = (phKey n, g) :: mapItems (n + 1) rest from rfl]
      rw [ih (n + 1)]
      rw [show fragsOf (FItem.frag g :: rest) = g :: fragsOf rest from rfl]
      rw [show n + (g :: fragsOf rest).length = (n + 1) + (fragsOf rest).length by
        simp; omega]
      rfl

theorem mapItems_length (A : List FItem) : ∀ n, (mapItems n A).length = (fragsOf A).length := by
  induction A with
  | nil => intro n; rfl
  | cons it rest ih =>
    intro n
    cases it with
    | ch c => exact ih n
    | frag g => simp [mapItems, fragsOf, ih (n + 1)]

theorem lookupL_append (xs ys : List (Str × Str)) (key : Str) :
    lookupL (xs ++ ys) key =
      match lookupL xs key with
      | some v => some v
      | none => lookupL ys key := by
  induction xs with
  | nil => rfl
  | cons kv rest ih =>
    obtain ⟨k, v⟩ := kv
    rw [List.cons_append, lookupL, lookupL]
    by_cases hk : (k == key) = true
    · rw [if_pos hk, if_pos hk]
    · rw [if_neg hk, if_neg hk, ih]

theorem lookupL_mapItems_none (A : List FItem) :
    ∀ (k j : Nat), (∀ i, i < (fragsOf A).length → j ≠ k + i) →
      lookupL (mapItems k A) (phKey j) = none := by
  induction A with
  | nil => intro k j _; rfl
  | cons it rest ih =>
    intro k j hj
    cases it with
    | ch c =>
      rw [show mapItems k (FItem.ch c :: rest) = mapItems k rest from rfl]
      exact ih k j (by intro i hi; exact hj i (by simp [fragsOf]; exact hi))
    | frag g =>
      rw [show mapItems k (FItem.frag g :: rest) = (phKey k, g) :: mapItems (k + 1) rest
        from rfl]
      rw [lookupL]
      rw [if_neg (by
        intro hbeq
        have hkj := phKey_inj _ _ (eq_of_beq hbeq)
        exact hj 0 (by simp [fragsOf]) (by omega))]
      exact ih (k + 1) j (by
        intro i hi
        have := hj (i + 1) (by simp [fragsOf]; omega)
        omega)

/-- C9 (confirmed): placeholders are deterministic: whenever the freeze scan
decomposes as a prefix A, a matched fragment f, and a suffix B, the fragment
is the n-th match in left-to-right order with n the number of fragments in A;
the rewritten text replaces it by space [T_n] space, and the map records key
[T_n] mapped to f (n-th entry and key lookup agree). -/
theorem C9_placeholder_determinism (s : Str) (A B : List FItem) (f : Str)
    (h : freezeScan s.length s = A ++ FItem.frag f :: B) :
    (freezeEscapesLocal s).1 =
      renderItems 0 A ++ ((' ' :: (phKey (fragsOf A).length ++ [' ']))
        ++ renderItems ((fragsOf A).length + 1) B) ∧
    lookupL (freezeEscapesLocal s).2 (phKey (fragsOf A).length) = some f ∧
    (freezeEscapesLocal s).2.getD (fragsOf A).length ([], []) =
      (phKey (fragsOf A).length, f) := by
  have hfst : (freezeEscapesLocal s).1 = renderItems 0 (freezeScan s.length s) := rfl
  have hsnd : (freezeEscapesLocal s).2 = mapItems 0 (freezeScan s.length s) := rfl
  refine ⟨?_, ?_, ?_⟩
  · rw [hfst, h, renderItems_append]
    rw [show renderItems (0 + (fragsOf A).length) (FItem.frag f :: B)
      = (' ' :: (phKey (0 + (fragsOf A).length) ++ [' ']))
        ++ renderItems ((0 + (fragsOf A).length) + 1) B from rfl]
    rw [Nat.zero_add]
  · rw [hsnd, h, mapItems_append]
    rw [show mapItems (0 + (fragsOf A).length) (FItem.frag f :: B)
      = (phKey (0 + (fragsOf A).length), f)
        :: mapItems ((0 + (fragsOf A).length) + 1) B from rfl]
    rw [Nat.zero_add]
    rw [lookupL_append]
    rw [lookupL_mapItems_none A 0 (fragsOf A).length (by intro i hi; omega)]
    rw [lookupL]
    rw [if_pos (beq_self_eq_true _)]
  · rw [hsnd, h, mapItems_append]
    rw [show mapItems (0 + (fragsOf A).length) (FItem.frag f :: B)
      = (phKey (0 + (fragsOf A).length), f)
        :: mapItems ((0 + (fragsOf A).length) + 1) B from rfl]
    rw [Nat.zero_add]
    rw [List.getD_append_right _ _ _ _ (by rw [mapItems_length])]
    rw [mapItems_length, Nat.sub_self]
    rfl

/-- C9 witness: for the input a LF b TAB c the second fragment (TAB, one
fragment before it) is keyed [T_1] and the rewritten text is
a space [T_0] space b space [T_1] space c. -/
theorem C9_placeholder_determinism_witness :
    lookupL (freezeEscapesLocal (String.toList "a\nb\tc")).2 (phKey 1) = some ['\t'] ∧
    (freezeEscapesLocal (String.toList "a\nb\tc")).1 = String.toList "a [T_0] b [T_1] c" := by
  have h := C9_placeholder_determinism (String.toList "a\nb\tc")
    [FItem.ch 'a', FItem.frag ['\n'], FItem.ch 'b'] [FItem.ch 'c'] ['\t'] (by decide)
  exact ⟨h.2.1, by decide⟩

/-- C1 (corrected): the codec round-trip holds for every input containing no
space, no VT, no FF and no open square bracket: thawing the frozen text with
the freeze map reproduces the input byte for byte, each matched fragment
restored verbatim and the defensive spaces removed.  (Unrestricted inputs can
break the round trip: whitespace adjacent to a matched fragment is absorbed
by the thaw regex, and literal placeholder-shaped tokens are rewritten; see
the counterexample.) -/
theorem C1_codec_roundtrip (s : Str) (h : s.all cleanChar = true) :
    thawEscapesLocal (freezeEscapesLocal s).1 (freezeEscapesLocal s).2 = s := by
  have hgood := freezeScan_good s.length s (Nat.le_refl _) h
  have horig := freezeScan_orig s.length s
  show thawScan (renderItems 0 (freezeScan s.length s)).length
    (mapItems 0 (freezeScan s.length s)) (renderItems 0 (freezeScan s.length s)) = s
  rw [← renderFrom_true_eq]
  rw [thawScan_render (mapItems 0 (freezeScan s.length s)) (freezeScan s.length s) hgood
    true 0 _ (Nat.le_refl _) (fun i hi => lookupL_mapItems (freezeScan s.length s) 0 i hi)]
  exact horig


/-- C1 counterexample: for the input a space LF b, the thaw of the freeze
output drops the space next to the frozen LF, so the round trip returns
a LF b instead of the original: the claim fails as stated for arbitrary
inputs. -/
theorem C1_codec_roundtrip_cex :
    thawEscapesLocal (freezeEscapesLocal cexRoundTripInput).1
        (freezeEscapesLocal cexRoundTripInput).2 = ['a', '\n', 'b'] ∧
    thawEscapesLocal (freezeEscapesLocal cexRoundTripInput).1
        (freezeEscapesLocal cexRoundTripInput).2 ≠ cexRoundTripInput := by
  decide


/-- C1 witness: the round trip on a clean input holding a LF, a tag, a
double-brace group and a literal escape. -/
theorem C1_codec_roundtrip_witness :
    thawEscapesLocal (freezeEscapesLocal roundTripWitnessInput).1
      (freezeEscapesLocal roundTripWitnessInput).2 = roundTripWitnessInput :=
  C1_codec_roundtrip roundTripWitnessInput (by decide)
